import Mathlib

/-!
Verification of the grass simulation module (grass.py): blade-layout
deduplication (`GrassManager.get_format`), tile placement, per-blade force
deflection (`GrassTile.apply_force`), return-to-rest easing and render
caching (`GrassTile.render`), the burn lifecycle
(`GrassTile.update_render_data`) and the burn-spread automaton
(`GrassManager.update_render`).

Modelling conventions:
* Python floats are modelled as exact rationals (`ℚ`), Python ints as
  `Nat`/`Int`.
* A Python list value that can be aliased (the blade layouts that a tile
  shares with the format pool) is a `Ref` into an explicit `Store`;
  `deepcopy` allocates a fresh reference holding the same value.
* `random.random()` / `random.choice` draws are supplied as oracle
  arguments to the functions that consume them.
* The euclidean distance computed with `math.sqrt` in
  `GrassTile.apply_force` is supplied as an argument (`dis`, or a distance
  function for whole-tile application), since the remaining arithmetic is
  exact on rationals.
-/

namespace GrassSim

/-- A single blade entry `[(x, y), variant, rotation, avg_color]` of
`GrassTile.blades` (grass.py line 293). -/
structure Blade where
  pos : ℚ × ℚ
  variant : Nat
  rot : ℚ
  color : Nat × Nat × Nat
deriving DecidableEq

/-- A blade layout: the value held by one Python blade-list object. -/
abbrev Layout := List Blade

/-- A reference to a blade-list object. -/
abbrev Ref := Nat

/-- Store of blade-layout list objects: models Python reference semantics
for the lists shared between `GrassTile.blades` and the format pool. -/
structure Store where
  mem : List Layout
deriving DecidableEq

/-- Dereference a layout list object. -/
def readStore (s : Store) (r : Ref) : Layout := s.mem.getD r []

/-- Create a new layout list object (fresh reference). -/
def allocStore (s : Store) (v : Layout) : Store × Ref :=
  ({ mem := s.mem ++ [v] }, s.mem.length)

/-- Overwrite the layout list object behind reference `r`. -/
def writeStore (s : Store) (r : Ref) (v : Layout) : Store :=
  { mem := s.mem.set r v }

/-- Lookup in an association list; models Python `dict` indexing. -/
def alookup {κ α : Type} [DecidableEq κ] : List (κ × α) → κ → Option α
  | [], _ => none
  | (k, v) :: rest, q => if q = k then some v else alookup rest q

/-- Insert-or-replace in an association list; models Python `d[k] = v`. -/
def aset {κ α : Type} [DecidableEq κ] : List (κ × α) → κ → α → List (κ × α)
  | [], q, v => [(q, v)]
  | (k, w) :: rest, q, v =>
    if q = k then (k, v) :: rest else (k, w) :: aset rest q v

theorem alookup_aset_self {κ α : Type} [DecidableEq κ] (m : List (κ × α)) (q : κ) (v : α) :
    alookup (aset m q v) q = some v := by
  induction m with
  | nil => simp [alookup, aset]
  | cons kv rest ih =>
    obtain ⟨k, w⟩ := kv
    by_cases h : q = k
    · simp [aset, alookup, h]
    · simp [aset, alookup, h, ih]

theorem alookup_aset_ne {κ α : Type} [DecidableEq κ] (m : List (κ × α)) {p q : κ} (v : α)
    (h : p ≠ q) : alookup (aset m q v) p = alookup m p := by
  induction m with
  | nil => simp [alookup, aset, h]
  | cons kv rest ih =>
    obtain ⟨k, w⟩ := kv
    by_cases hk : q = k
    · subst hk
      simp [aset, alookup, h]
    · by_cases hp : p = k
      · simp [aset, alookup, hk, hp]
      · simp [aset, alookup, hk, hp, ih]

/-- grass.py lines 82-89, `normalize(val, amt, target)`: move `val` toward
`target` by `amt`, snapping to `target` when within `amt` of it. -/
def normalize (val amt target : ℚ) : ℚ :=
  if target + amt < val then val - amt
  else if val < target - amt then val + amt
  else target

/-- The function `normalize` reduces the deviation from `target` by exactly `amt`,
flooring at `0` (no overshoot; exact snap when within `amt`). -/
theorem normalize_dev (val amt target : ℚ) (h : 0 ≤ amt) :
    |normalize val amt target - target| = max 0 (|val - target| - amt) := by
  unfold normalize
  split_ifs with ha hb
  · rw [abs_of_nonneg (by linarith : (0 : ℚ) ≤ val - target)]
    rw [max_eq_right (by linarith : (0 : ℚ) ≤ val - target - amt)]
    rw [abs_of_nonneg (by linarith : (0 : ℚ) ≤ val - amt - target)]
    ring
  · rw [abs_of_nonpos (by linarith : val - target ≤ (0 : ℚ))]
    rw [max_eq_right (by linarith : (0 : ℚ) ≤ -(val - target) - amt)]
    rw [abs_of_nonpos (by linarith : val + amt - target ≤ (0 : ℚ))]
    ring
  · have h3 : |val - target| ≤ amt := abs_le.mpr ⟨by linarith, by linarith⟩
    rw [sub_self, abs_zero]
    exact (max_eq_left (by linarith)).symm

/-- Force magnitude for one blade in `GrassTile.apply_force`
(grass.py lines 323-328), as a function of the blade's euclidean distance
`dis` to the force point. -/
def bladeForce (dis radius dropoff : ℚ) : ℚ :=
  if dis < radius then 2
  else 1 - min (max 0 (dis - radius) / dropoff) 1

/-- Division that records the Python `ZeroDivisionError` case as `none`. -/
def divOption (a b : ℚ) : Option ℚ := if b = 0 then none else some (a / b)

/-- Variant of `bladeForce` with the division checked: `none` exactly when the Python
code would raise `ZeroDivisionError` in the falloff computation. -/
def bladeForceChecked (dis radius dropoff : ℚ) : Option ℚ :=
  if dis < radius then some 2
  else (divOption (max 0 (dis - radius)) dropoff).map (fun q => 1 - min q 1)

/-- One iteration of the per-blade loop of `GrassTile.apply_force`
(grass.py lines 320-332): `fpx` is `force_point[0]`, `worldX` is
`self.loc[0] + blade[0][0]`, `force` the computed magnitude, `b` the base
blade `self.blades[i]` and `cur` the current override
`self.custom_blade_data[i]`. -/
def apply_force_blade (fpx worldX force : ℚ) (b : Blade) (cur : Option Blade) : Blade :=
  let dir : ℚ := if worldX < fpx then 1 else -1
  match cur with
  | none => { b with rot := b.rot + dir * force * 90 }
  | some c =>
    if |c.rot - b.rot| ≤ |force| * 90 then { b with rot := b.rot + dir * force * 90 }
    else c

/-- C9: under the caller precondition `dropoff > 0` the falloff math of
`GrassTile.apply_force` performs no division by zero: for every blade
distance and radius the checked evaluation succeeds and agrees with the
total model `bladeForce`. -/
theorem apply_force_no_div_by_zero (dropoff : ℚ) (h : 0 < dropoff) :
    ∀ dis radius : ℚ,
      bladeForceChecked dis radius dropoff = some (bladeForce dis radius dropoff) := by
  intro dis radius
  unfold bladeForceChecked bladeForce divOption
  split_ifs with h1 h2
  · rfl
  · exact absurd h2 (ne_of_gt h)
  · rfl

theorem apply_force_no_div_by_zero_witness :
    (0 : ℚ) < 1 ∧
      ∀ dis radius : ℚ, bladeForceChecked dis radius 1 = some (bladeForce dis radius 1) :=
  ⟨by norm_num, apply_force_no_div_by_zero 1 (by norm_num)⟩

/-- C5: in `GrassTile.apply_force`, the force magnitude is `2` inside
`radius` and `1 - min ((dis - radius)/dropoff, 1)` outside; the direction is
`+1` iff the force point is strictly to the blade's right; the override
rotation written is the base rotation plus `dir * force * 90`; and an
existing override is overwritten exactly when its deviation from the base
rotation is at most the new force's implied deflection `|force| * 90`. -/
theorem apply_force_blade_spec (dis radius dropoff fpx worldX : ℚ) (b : Blade)
    (cur : Option Blade) (dir : ℚ)
    (hdir : dir = if worldX < fpx then (1 : ℚ) else -1) :
    (dis < radius → bladeForce dis radius dropoff = 2)
    ∧ (radius ≤ dis →
        bladeForce dis radius dropoff = 1 - min ((dis - radius) / dropoff) 1)
    ∧ (cur = none →
        apply_force_blade fpx worldX (bladeForce dis radius dropoff) b cur
          = { b with rot := b.rot + dir * bladeForce dis radius dropoff * 90 })
    ∧ (∀ c, cur = some c →
        (|c.rot - b.rot| ≤ |bladeForce dis radius dropoff| * 90 →
          apply_force_blade fpx worldX (bladeForce dis radius dropoff) b cur
            = { b with rot := b.rot + dir * bladeForce dis radius dropoff * 90 })
        ∧ (|bladeForce dis radius dropoff| * 90 < |c.rot - b.rot| →
          apply_force_blade fpx worldX (bladeForce dis radius dropoff) b cur = c)) := by
  subst hdir
  refine ⟨?_, ?_, ?_, ?_⟩
  · intro h
    simp [bladeForce, h]
  · intro h
    have hnl : ¬ dis < radius := not_lt.mpr h
    rw [bladeForce, if_neg hnl, max_eq_right (by linarith : (0 : ℚ) ≤ dis - radius)]
  · intro h
    subst h
    rfl
  · intro c hc
    subst hc
    constructor
    · intro hle
      simp [apply_force_blade, hle]
    · intro hlt
      simp [apply_force_blade, not_le.mpr hlt]

theorem apply_force_blade_spec_witness :
    ((5 : ℚ) < 3 → bladeForce 5 3 4 = 2)
    ∧ ((3 : ℚ) ≤ 5 → bladeForce 5 3 4 = 1 - min (((5 : ℚ) - 3) / 4) 1)
    ∧ ((none : Option Blade) = none →
        apply_force_blade 10 0 (bladeForce 5 3 4) ⟨(0, 0), 0, 7, (0, 0, 0)⟩ none
          = { (⟨(0, 0), 0, 7, (0, 0, 0)⟩ : Blade) with
              rot := (7 : ℚ) + 1 * bladeForce 5 3 4 * 90 })
    ∧ (∀ c, (none : Option Blade) = some c →
        (|c.rot - (7 : ℚ)| ≤ |bladeForce 5 3 4| * 90 →
          apply_force_blade 10 0 (bladeForce 5 3 4) ⟨(0, 0), 0, 7, (0, 0, 0)⟩ none
            = { (⟨(0, 0), 0, 7, (0, 0, 0)⟩ : Blade) with
                rot := (7 : ℚ) + 1 * bladeForce 5 3 4 * 90 })
        ∧ (|bladeForce 5 3 4| * 90 < |c.rot - (7 : ℚ)| →
          apply_force_blade 10 0 (bladeForce 5 3 4) ⟨(0, 0), 0, 7, (0, 0, 0)⟩ none = c)) :=
  apply_force_blade_spec 5 3 4 10 0 ⟨(0, 0), 0, 7, (0, 0, 0)⟩ none 1 (by norm_num)

/-- State of one `GrassTile` (grass.py lines 260-313). `bladesRef` is the
reference held in `self.blades`; `custom` is `self.custom_blade_data`,
`none` for Python `None`. `burning` is the ignition fuse (`60` at
construction, `0` = actively on fire, kept in `Nat` because every update is
floored at `0`). -/
structure Tile where
  loc : ℤ × ℤ
  size : ℤ
  bladesRef : Ref
  base_id : Nat
  master_rotation : ℚ
  precision : Nat
  inc : ℚ
  burn_life : ℚ
  max_burn_life : ℚ
  burning : Nat
  render_data : Nat × ℚ
  true_rotation : ℚ
  custom : Option Layout
deriving DecidableEq

/-- Python truthiness of `self.custom_blade_data` (`None` and the empty
list are both falsy). -/
def truthy : Option Layout → Bool
  | none => false
  | some l => !l.isEmpty

/-- Model of `GrassTile.update_render_data(dt)` (grass.py lines 337-357).
While on fire (`burning == 0`) it decrements `burn_life` by `25 * dt`
floored at `0`; when `burn_life` hits `0` the tile deletes itself from
`gm.grass_tiles` (modelled by returning `none`).  Otherwise it refreshes
the cache identifier `render_data = (base_id, master_rotation)` and the
degree rotation `true_rotation = inc * master_rotation`. -/
def update_render_data (dt : ℚ) (t : Tile) : Option Tile :=
  if t.burning = 0 then
    let bl := max 0 (t.burn_life - 25 * dt)
    if bl = 0 then none
    else some { t with burn_life := bl }
  else
    some { t with render_data := (t.base_id, t.master_rotation),
                  true_rotation := t.inc * t.master_rotation }

/-- Model of `GrassTile.set_rotation(rotation, dt)` (grass.py lines 360-362). -/
def set_rotation (rot dt : ℚ) (t : Tile) : Option Tile :=
  update_render_data dt { t with master_rotation := rot }

/-- A sequence of per-frame `update_render_data` ticks; once the tile has
burnt out (removed itself) no further tick applies. -/
def updateTicks (dts : List ℚ) (t : Tile) : Option Tile :=
  dts.foldl (fun ot d => ot.bind (update_render_data d)) (some t)

theorem updateTicks_none (dts : List ℚ) :
    dts.foldl (fun ot d => ot.bind (update_render_data d)) (none : Option Tile) = none := by
  induction dts with
  | nil => rfl
  | cons d rest ih => simpa using ih

theorem updateTicks_none_iff (dts : List ℚ) (t : Tile) (hb : t.burning = 0)
    (hbl : 0 < t.burn_life) (hpos : ∀ d ∈ dts, 0 ≤ d) :
    updateTicks dts t = none ↔ t.burn_life ≤ 25 * dts.sum := by
  induction dts generalizing t with
  | nil =>
    simp only [updateTicks, List.foldl_nil, List.sum_nil, mul_zero]
    constructor
    · intro h
      exact absurd h (by simp)
    · intro h
      linarith
  | cons d rest ih =>
    have hd : 0 ≤ d := hpos d (List.mem_cons_self d rest)
    have hrest : ∀ x ∈ rest, 0 ≤ x := fun x hx => hpos x (List.mem_cons_of_mem d hx)
    have hsum : 0 ≤ rest.sum := List.sum_nonneg hrest
    simp only [updateTicks, List.foldl_cons, Option.bind_eq_bind, Option.some_bind,
      List.sum_cons]
    rw [update_render_data, if_pos hb]
    by_cases hz : max 0 (t.burn_life - 25 * d) = 0
    · rw [if_pos hz]
      have hle : t.burn_life ≤ 25 * d := by
        by_contra hc
        push_neg at hc
        have : max 0 (t.burn_life - 25 * d) = t.burn_life - 25 * d :=
          max_eq_right (by linarith)
        rw [this] at hz
        linarith
      simp only [updateTicks_none, true_iff]
      nlinarith
    · rw [if_neg hz]
      have hgt : 0 < max 0 (t.burn_life - 25 * d) :=
        lt_of_le_of_ne (le_max_left 0 _) (Ne.symm hz)
      have hmax : max 0 (t.burn_life - 25 * d) = t.burn_life - 25 * d := by
        rcases max_cases (0 : ℚ) (t.burn_life - 25 * d) with ⟨h1, _⟩ | ⟨h1, _⟩
        · rw [h1] at hgt
          exact absurd hgt (lt_irrefl 0)
        · exact h1
      have h2 := ih { t with burn_life := max 0 (t.burn_life - 25 * d) } hb
        (by simpa using hgt) hrest
      rw [updateTicks] at h2
      dsimp only at h2
      rw [hmax] at h2 ⊢
      rw [h2]
      constructor <;> intro h <;> linarith

/-- C3: for an ignited tile (`burning = 0`, `burn_life = 30`), each
`update_render_data` tick decrements `burn_life` by `25 * dt` floored at
`0`, and the tile removes itself from the field exactly when the
accumulated `dt` of active burning reaches `30 / 25 = 1.2` seconds: after
any sequence of positive-`dt` ticks, the tile is gone iff the summed `dt`
is at least `1.2`. -/
theorem burn_lifecycle (t : Tile) (hb : t.burning = 0) (hl : t.burn_life = 30)
    (dts : List ℚ) (hpos : ∀ d ∈ dts, 0 < d) :
    (∀ (u : Tile), u.burning = 0 → ∀ d : ℚ,
        ((update_render_data d u).map Tile.burn_life).getD 0 = max 0 (u.burn_life - 25 * d))
    ∧ (updateTicks dts t = none ↔ (6 : ℚ) / 5 ≤ dts.sum) := by
  constructor
  · intro u hu d
    rw [update_render_data, if_pos hu]
    by_cases hz : max 0 (u.burn_life - 25 * d) = 0
    · rw [if_pos hz]
      simp [hz]
    · rw [if_neg hz]
      simp
  · rw [updateTicks_none_iff dts t hb (by rw [hl]; norm_num)
      (fun d hd => le_of_lt (hpos d hd)), hl]
    constructor <;> intro h <;> linarith

/-- A concrete tile used by witnesses: ignited, fresh fuel. -/
def burnTestTile : Tile :=
  { loc := (0, 0), size := 15, bladesRef := 0, base_id := 0, master_rotation := 0,
    precision := 30, inc := 3, burn_life := 30, max_burn_life := 30, burning := 0,
    render_data := (0, 0), true_rotation := 0, custom := none }

theorem burn_lifecycle_witness :
    ((∀ (u : Tile), u.burning = 0 → ∀ d : ℚ,
        ((update_render_data d u).map Tile.burn_life).getD 0 = max 0 (u.burn_life - 25 * d))
      ∧ (updateTicks [1, 1 / 5] burnTestTile = none ↔ (6 : ℚ) / 5 ≤ ([1, 1 / 5] : List ℚ).sum))
    ∧ updateTicks [1, 1 / 5] burnTestTile = none
    ∧ updateTicks [1] burnTestTile ≠ none := by
  refine ⟨burn_lifecycle burnTestTile rfl rfl [1, 1 / 5] ?_, ?_, ?_⟩
  · intro d hd
    simp only [List.mem_cons, List.not_mem_nil, or_false] at hd
    rcases hd with h | h <;> rw [h] <;> norm_num
  · norm_num [updateTicks, update_render_data, burnTestTile]
  · intro hcon
    norm_num [updateTicks, update_render_data, burnTestTile] at hcon
    exact Option.noConfusion hcon

theorem getD_append_left {α : Type} (l l2 : List α) (i : Nat) (d : α) (h : i < l.length) :
    (l ++ l2).getD i d = l.getD i d := by
  induction l generalizing i with
  | nil => exact absurd h (by simp)
  | cons x xs ih =>
    cases i with
    | zero => rfl
    | succ n => exact ih n (by simpa using h)

theorem getD_concat_self {α : Type} (l : List α) (a : α) (d : α) :
    (l ++ [a]).getD l.length d = a := by
  induction l with
  | nil => rfl
  | cons x xs ih => exact ih

theorem getD_set_ne {α : Type} (l : List α) (i j : Nat) (v d : α) (h : i ≠ j) :
    (l.set j v).getD i d = l.getD i d := by
  induction l generalizing i j with
  | nil => rfl
  | cons x xs ih =>
    cases j with
    | zero =>
      cases i with
      | zero => exact absurd rfl h
      | succ n => rfl
    | succ m =>
      cases i with
      | zero => rfl
      | succ n => exact ih n m (fun hc => h (by rw [hc]))

theorem getD_mem {α : Type} (l : List α) (i : Nat) (d : α) (h : i < l.length) :
    l.getD i d ∈ l := by
  induction l generalizing i with
  | nil => exact absurd h (by simp)
  | cons x xs ih =>
    cases i with
    | zero => exact List.mem_cons_self x xs
    | succ n => exact List.mem_cons_of_mem x (ih n (by simpa using h))

/-- A format signature `(amt, tuple(config))` (grass.py line 303). -/
abbrev FormatId := Nat × List Nat

/-- One entry of `GrassManager.formats`: `{'count': .., 'data': [..]}`
where each data element is a `(tile_id, blades-list)` pair; the blades
list is stored by reference. -/
structure FormatEntry where
  count : Nat
  data : List (Nat × Ref)
deriving DecidableEq

/-- Model of `GrassManager.get_format` (grass.py lines 124-131).  `choice` is the
`random.choice` oracle (an index, reduced mod the pool size); the
`deepcopy` of the selected `(tile_id, data)` pair allocates a fresh list
object carrying the same layout value. -/
def get_format (max_unique : Nat) (formats : List (FormatId × FormatEntry)) (store : Store)
    (format_id : FormatId) (tile_id : Nat) (dataRef : Ref) (choice : Nat) :
    List (FormatId × FormatEntry) × Store × Option (Nat × Ref) :=
  match alookup formats format_id with
  | none => (aset formats format_id ⟨1, [(tile_id, dataRef)]⟩, store, none)
  | some e =>
    if max_unique ≤ e.count then
      let picked := e.data.getD (choice % e.data.length) (0, 0)
      let (store2, newRef) := allocStore store (readStore store picked.2)
      (formats, store2, some (picked.1, newRef))
    else
      (aset formats format_id ⟨e.count + 1, e.data ++ [(tile_id, dataRef)]⟩, store, none)

/-- The arguments of one `get_format` call. -/
structure FmtCall where
  format_id : FormatId
  tile_id : Nat
  dataRef : Ref
  choice : Nat

/-- One `get_format` call acting on the manager's `(formats, store)`. -/
def stepFmt (mu : Nat) (st : List (FormatId × FormatEntry) × Store) (c : FmtCall) :
    List (FormatId × FormatEntry) × Store :=
  ((get_format mu st.1 st.2 c.format_id c.tile_id c.dataRef c.choice).1,
   (get_format mu st.1 st.2 c.format_id c.tile_id c.dataRef c.choice).2.1)

/-- A sequence of `get_format` calls starting from a fresh manager. -/
def runFormats (mu : Nat) (calls : List FmtCall) : List (FormatId × FormatEntry) × Store :=
  calls.foldl (stepFmt mu) ([], ⟨[]⟩)

/-- The pool stored for a signature (empty if the signature is unknown). -/
def poolOf (formats : List (FormatId × FormatEntry)) (fid : FormatId) : List (Nat × Ref) :=
  ((alookup formats fid).map FormatEntry.data).getD []

/-- Internal invariant of the format table: `count` equals the pool size,
pools are non-empty once created, and pools never exceed `max_unique`. -/
def FormatsOK (mu : Nat) (formats : List (FormatId × FormatEntry)) : Prop :=
  ∀ fid e, alookup formats fid = some e →
    e.count = e.data.length ∧ 1 ≤ e.data.length ∧ e.data.length ≤ mu

theorem formatsOK_get_format (mu : Nat) (hmu : 1 ≤ mu)
    (fs : List (FormatId × FormatEntry)) (st : Store) (fid0 : FormatId)
    (tid : Nat) (r : Ref) (ch : Nat) (h : FormatsOK mu fs) :
    FormatsOK mu (get_format mu fs st fid0 tid r ch).1 := by
  intro fid e he
  cases hl : alookup fs fid0 with
  | none =>
    simp only [get_format, hl] at he
    by_cases hf : fid = fid0
    · subst hf
      rw [alookup_aset_self] at he
      cases he
      exact ⟨rfl, by simp, by simpa using hmu⟩
    · rw [alookup_aset_ne _ _ hf] at he
      exact h fid e he
  | some e0 =>
    by_cases hcap : mu ≤ e0.count
    · simp only [get_format, hl, if_pos hcap] at he
      exact h fid e he
    · simp only [get_format, hl, if_neg hcap] at he
      by_cases hf : fid = fid0
      · subst hf
        rw [alookup_aset_self] at he
        cases he
        obtain ⟨hc, hpos, _⟩ := h _ e0 hl
        refine ⟨by simp [hc], by simp, ?_⟩
        simp only [List.length_append, List.length_cons, List.length_nil]
        omega
      · rw [alookup_aset_ne _ _ hf] at he
        exact h fid e he

theorem pool_get_format_extends (mu : Nat) (fs : List (FormatId × FormatEntry)) (st : Store)
    (fid0 : FormatId) (tid : Nat) (r : Ref) (ch : Nat) (fid : FormatId) :
    ∃ add, poolOf (get_format mu fs st fid0 tid r ch).1 fid = poolOf fs fid ++ add := by
  cases hl : alookup fs fid0 with
  | none =>
    by_cases hf : fid = fid0
    · subst hf
      exact ⟨[(tid, r)], by simp [get_format, hl, poolOf, alookup_aset_self]⟩
    · exact ⟨[], by simp [get_format, hl, poolOf, alookup_aset_ne _ _ hf]⟩
  | some e0 =>
    by_cases hcap : mu ≤ e0.count
    · exact ⟨[], by simp [get_format, hl, if_pos hcap]⟩
    · by_cases hf : fid = fid0
      · subst hf
        exact ⟨[(tid, r)], by simp [get_format, hl, if_neg hcap, poolOf,
          alookup_aset_self]⟩
      · exact ⟨[], by simp [get_format, hl, if_neg hcap, poolOf,
          alookup_aset_ne _ _ hf]⟩

theorem get_format_saturated (mu : Nat) (fs : List (FormatId × FormatEntry)) (st : Store)
    (fid : FormatId) (tid : Nat) (r : Ref) (ch : Nat) (e0 : FormatEntry)
    (hl : alookup fs fid = some e0) (hcap : mu ≤ e0.count) (hlen : 0 < e0.data.length) :
    (get_format mu fs st fid tid r ch).1 = fs
    ∧ (get_format mu fs st fid tid r ch).2.1
        = { mem := st.mem ++ [readStore st (e0.data.getD (ch % e0.data.length) (0, 0)).2] }
    ∧ (get_format mu fs st fid tid r ch).2.2
        = some ((e0.data.getD (ch % e0.data.length) (0, 0)).1, st.mem.length)
    ∧ e0.data.getD (ch % e0.data.length) (0, 0) ∈ e0.data := by
  refine ⟨?_, ?_, ?_, getD_mem _ _ _ (Nat.mod_lt _ hlen)⟩
  · simp [get_format, hl, if_pos hcap]
  · simp [get_format, hl, if_pos hcap, allocStore]
  · simp [get_format, hl, if_pos hcap, allocStore]

theorem formatsOK_runFormats (mu : Nat) (hmu : 1 ≤ mu) (calls : List FmtCall) :
    FormatsOK mu (runFormats mu calls).1 := by
  suffices h : ∀ st : List (FormatId × FormatEntry) × Store, FormatsOK mu st.1 →
      FormatsOK mu (calls.foldl (stepFmt mu) st).1 by
    exact h ([], ⟨[]⟩) (fun fid e he => by simp [alookup] at he)
  induction calls with
  | nil => exact fun st h => h
  | cons c rest ih =>
    intro st h
    exact ih (stepFmt mu st c) (formatsOK_get_format mu hmu st.1 st.2
      c.format_id c.tile_id c.dataRef c.choice h)

/-- C1: with `max_unique ≥ 1`, over any sequence of `get_format` calls
from a fresh manager, every signature's pool has at most `max_unique`
entries, pools only ever grow by appending (no entry is ever removed), and
once a signature's pool holds `max_unique` entries any further call for it
leaves the format table unchanged and returns (a copy of) an existing pool
entry instead of storing a new one. -/
theorem get_format_pool_bound (mu : Nat) (hmu : 1 ≤ mu) (calls : List FmtCall)
    (fid : FormatId) :
    (poolOf (runFormats mu calls).1 fid).length ≤ mu
    ∧ (∀ n : Nat, ∃ add, poolOf (runFormats mu (calls.take (n + 1))).1 fid
        = poolOf (runFormats mu (calls.take n)).1 fid ++ add)
    ∧ (∀ tid r ch,
        (poolOf (runFormats mu calls).1 fid).length = mu →
        (get_format mu (runFormats mu calls).1 (runFormats mu calls).2
            fid tid r ch).1 = (runFormats mu calls).1
        ∧ ∃ p ∈ poolOf (runFormats mu calls).1 fid,
            (get_format mu (runFormats mu calls).1 (runFormats mu calls).2
                fid tid r ch).2.2 = some (p.1, (runFormats mu calls).2.mem.length)) := by
  have hOK := formatsOK_runFormats mu hmu calls
  refine ⟨?_, ?_, ?_⟩
  · cases hl : alookup (runFormats mu calls).1 fid with
    | none => simp [poolOf, hl]
    | some e =>
      obtain ⟨_, _, hle⟩ := hOK fid e hl
      simpa [poolOf, hl] using hle
  · intro n
    rw [List.take_succ]
    cases hg : calls[n]? with
    | none =>
      refine ⟨[], ?_⟩
      simp [Option.toList]
    | some c =>
      simp only [runFormats, Option.toList_some, List.foldl_append, List.foldl_cons,
        List.foldl_nil]
      exact pool_get_format_extends mu _ _ c.format_id c.tile_id c.dataRef c.choice fid
  · intro tid r ch hfull
    cases hl : alookup (runFormats mu calls).1 fid with
    | none =>
      rw [poolOf, hl] at hfull
      simp at hfull
      omega
    | some e =>
      have hpool : poolOf (runFormats mu calls).1 fid = e.data := by
        simp [poolOf, hl]
      rw [hpool] at hfull
      obtain ⟨hc, hpos, _⟩ := hOK fid e hl
      have hcap : mu ≤ e.count := by omega
      have hlen : 0 < e.data.length := hpos
      obtain ⟨h1, _, h3, h4⟩ := get_format_saturated mu (runFormats mu calls).1
        (runFormats mu calls).2 fid tid r ch e hl hcap hlen
      refine ⟨h1, ⟨e.data.getD (ch % e.data.length) (0, 0), ?_, h3⟩⟩
      rw [hpool]
      exact h4

theorem get_format_pool_bound_witness :
    (1 ≤ 1)
    ∧ ((poolOf (runFormats 1 [⟨(1, [0]), 0, 0, 0⟩]).1 (1, [0])).length ≤ 1
      ∧ (∀ n : Nat, ∃ add,
          poolOf (runFormats 1 ([⟨(1, [0]), 0, 0, 0⟩].take (n + 1))).1 (1, [0])
            = poolOf (runFormats 1 ([⟨(1, [0]), 0, 0, 0⟩].take n)).1 (1, [0]) ++ add)
      ∧ (∀ tid r ch,
          (poolOf (runFormats 1 [⟨(1, [0]), 0, 0, 0⟩]).1 (1, [0])).length = 1 →
          (get_format 1 (runFormats 1 [⟨(1, [0]), 0, 0, 0⟩]).1
              (runFormats 1 [⟨(1, [0]), 0, 0, 0⟩]).2 (1, [0]) tid r ch).1
            = (runFormats 1 [⟨(1, [0]), 0, 0, 0⟩]).1
          ∧ ∃ p ∈ poolOf (runFormats 1 [⟨(1, [0]), 0, 0, 0⟩]).1 (1, [0]),
              (get_format 1 (runFormats 1 [⟨(1, [0]), 0, 0, 0⟩]).1
                  (runFormats 1 [⟨(1, [0]), 0, 0, 0⟩]).2 (1, [0]) tid r ch).2.2
                = some (p.1, (runFormats 1 [⟨(1, [0]), 0, 0, 0⟩]).2.mem.length))) :=
  ⟨le_refl 1, get_format_pool_bound 1 (le_refl 1) [⟨(1, [0]), 0, 0, 0⟩] (1, [0])⟩

/-- C7: once a signature's pool has reached the cap, `get_format` leaves
the format table unchanged and hands out a deep copy of the chosen pool
entry: the returned pair carries the chosen entry's tile id together with a
fresh list reference holding the same layout value, the call leaves every
pool entry's layout untouched, and any later write through the returned
reference still leaves every pool entry's layout unmodified.  The
`random.choice` draw is modelled by the oracle index `ch` (reduced mod the
pool size), so the statement covers every possible uniform choice. -/
theorem get_format_deepcopy (mu : Nat) (fs : List (FormatId × FormatEntry)) (st : Store)
    (fid : FormatId) (tid : Nat) (r : Ref) (ch : Nat) (e0 : FormatEntry)
    (hl : alookup fs fid = some e0) (hcap : mu ≤ e0.count) (hlen : 0 < e0.data.length)
    (hvalid : ∀ p ∈ e0.data, p.2 < st.mem.length) :
    (get_format mu fs st fid tid r ch).1 = fs
    ∧ ∃ p ∈ e0.data,
        (get_format mu fs st fid tid r ch).2.2 = some (p.1, st.mem.length)
        ∧ readStore (get_format mu fs st fid tid r ch).2.1 st.mem.length
            = readStore st p.2
        ∧ (∀ q ∈ e0.data,
            readStore (get_format mu fs st fid tid r ch).2.1 q.2 = readStore st q.2)
        ∧ (∀ v : Layout, ∀ q ∈ e0.data,
            readStore (writeStore (get_format mu fs st fid tid r ch).2.1 st.mem.length v) q.2
              = readStore st q.2) := by
  obtain ⟨h1, h2, h3, h4⟩ := get_format_saturated mu fs st fid tid r ch e0 hl hcap hlen
  refine ⟨h1, ⟨e0.data.getD (ch % e0.data.length) (0, 0), h4, h3, ?_, ?_, ?_⟩⟩
  · rw [h2, readStore]
    exact getD_concat_self st.mem _ []
  · intro q hq
    rw [h2, readStore, readStore]
    exact getD_append_left st.mem _ q.2 [] (hvalid q hq)
  · intro v q hq
    rw [h2, writeStore, readStore, readStore]
    dsimp only
    rw [getD_set_ne _ _ _ _ _ (Nat.ne_of_lt (hvalid q hq)), getD_append_left st.mem _ q.2 []
      (hvalid q hq)]
    exact rfl

/-- Concrete format table and store for the C7 witness. -/
def c7Fs : List (FormatId × FormatEntry) := [((1, [0]), ⟨1, [(5, 0)]⟩)]

def c7St : Store := ⟨[[⟨(0, 0), 0, 0, (0, 0, 0)⟩]]⟩

theorem get_format_deepcopy_witness :
    (alookup c7Fs (1, [0]) = some ⟨1, [(5, 0)]⟩)
    ∧ ((get_format 1 c7Fs c7St (1, [0]) 7 3 0).1 = c7Fs
      ∧ ∃ p ∈ (⟨1, [(5, 0)]⟩ : FormatEntry).data,
          (get_format 1 c7Fs c7St (1, [0]) 7 3 0).2.2 = some (p.1, c7St.mem.length)
          ∧ readStore (get_format 1 c7Fs c7St (1, [0]) 7 3 0).2.1 c7St.mem.length
              = readStore c7St p.2
          ∧ (∀ q ∈ (⟨1, [(5, 0)]⟩ : FormatEntry).data,
              readStore (get_format 1 c7Fs c7St (1, [0]) 7 3 0).2.1 q.2 = readStore c7St q.2)
          ∧ (∀ v : Layout, ∀ q ∈ (⟨1, [(5, 0)]⟩ : FormatEntry).data,
              readStore (writeStore (get_format 1 c7Fs c7St (1, [0]) 7 3 0).2.1
                  c7St.mem.length v) q.2 = readStore c7St q.2)) :=
  ⟨rfl, get_format_deepcopy 1 c7Fs c7St (1, [0]) 7 3 0 ⟨1, [(5, 0)]⟩ rfl (le_refl 1)
    (by norm_num) (by intro p hp; fin_cases hp; norm_num [c7St])⟩

/-- State of the `GrassManager` fields that placement touches
(grass.py lines 93-113): the id counter, format table, blade-list store,
tile table and configuration. -/
structure Mgr where
  grass_id : Nat
  formats : List (FormatId × FormatEntry)
  store : Store
  tiles : List ((ℤ × ℤ) × Tile)
  tile_size : ℤ
  max_unique : Nat
deriving DecidableEq

/-- Stable insertion used to model Python's stable `list.sort(key=...)`
by variant id (grass.py line 296). -/
def insertBlade (b : Blade) : Layout → Layout
  | [] => [b]
  | c :: rest => if c.variant < b.variant then c :: insertBlade b rest else b :: c :: rest

def sortBlades : Layout → Layout
  | [] => []
  | b :: rest => insertBlade b (sortBlades rest)

/-- Model of `GrassTile.__init__` (grass.py lines 261-313).  The randomly generated
blade list is supplied by the oracle `genBlades` (each element already
holding its random variant, position, base rotation and the variant's
average color); `choice` is the `random.choice` oracle for `get_format`.
Returns the new tile together with the updated manager state. -/
def mk_grass_tile (gm : Mgr) (location : ℤ × ℤ) (amt : Nat) (config : List Nat)
    (genBlades : Layout) (choice : Nat) : Tile × Mgr :=
  let blades := sortBlades genBlades
  let baseId := gm.grass_id
  let (st1, r) := allocStore gm.store blades
  let res := get_format gm.max_unique gm.formats st1 (amt, config) baseId r choice
  let idRef : Nat × Ref :=
    match res.2.2 with
    | some p => p
    | none => (baseId, r)
  ({ loc := (location.1 * gm.tile_size, location.2 * gm.tile_size),
     size := gm.tile_size, bladesRef := idRef.2, base_id := idRef.1,
     master_rotation := 0, precision := 30, inc := 90 / 30,
     burn_life := 30, max_burn_life := 30, burning := 60,
     render_data := (idRef.1, 0), true_rotation := 0, custom := none },
   { gm with grass_id := gm.grass_id + 1, formats := res.1, store := res.2.1 })

/-- Model of `GrassManager.place_tile` (grass.py lines 141-144): ignored if a tile
was already placed at this location. -/
def place_tile (gm : Mgr) (location : ℤ × ℤ) (amt : Nat) (config : List Nat)
    (genBlades : Layout) (choice : Nat) : Mgr :=
  match alookup gm.tiles location with
  | some _ => gm
  | none =>
    let tg := mk_grass_tile gm location amt config genBlades choice
    { tg.2 with tiles := aset tg.2.tiles location tg.1 }

/-- C8: a `place_tile` call at an occupied coordinate is a no-op: the whole
manager state is unchanged, so the first tile's layout and state are kept
and no new tile is constructed (the id counter does not advance). -/
theorem place_tile_idempotent (gm : Mgr) (location : ℤ × ℤ) (t : Tile)
    (h : alookup gm.tiles location = some t) (amt : Nat) (config : List Nat)
    (genBlades : Layout) (choice : Nat) :
    place_tile gm location amt config genBlades choice = gm
    ∧ alookup (place_tile gm location amt config genBlades choice).tiles location = some t
    ∧ (place_tile gm location amt config genBlades choice).grass_id = gm.grass_id := by
  have h1 : place_tile gm location amt config genBlades choice = gm := by
    rw [place_tile, h]
  exact ⟨h1, by rw [h1, h], by rw [h1]⟩

/-- Concrete manager for the C8 witness: one tile already placed. -/
def c8Mgr : Mgr :=
  { grass_id := 1, formats := [], store := ⟨[]⟩,
    tiles := [((0, 0), burnTestTile)], tile_size := 15, max_unique := 10 }

theorem place_tile_idempotent_witness :
    (alookup c8Mgr.tiles (0, 0) = some burnTestTile)
    ∧ (place_tile c8Mgr (0, 0) 9 [0] [] 0 = c8Mgr
      ∧ alookup (place_tile c8Mgr (0, 0) 9 [0] [] 0).tiles (0, 0) = some burnTestTile
      ∧ (place_tile c8Mgr (0, 0) 9 [0] [] 0).grass_id = c8Mgr.grass_id) :=
  ⟨rfl, place_tile_idempotent c8Mgr (0, 0) burnTestTile rfl 9 [0] [] 0⟩

/-- What `GrassTile.render_tile` draws (grass.py lines 365-398), as a pure
value: each blade of the active source list (`custom_blade_data` when
truthy, otherwise `blades`) together with its clamped final rotation
`max(-90, min(90, blade_rot + true_rotation))`, plus the burn scale
`burn_life / max_burn_life` passed to `render_blade`. -/
structure TileImage where
  draws : List (Blade × ℚ)
  scale : ℚ
deriving DecidableEq

def render_tile (st : Store) (t : Tile) : TileImage :=
  let blades := if truthy t.custom then t.custom.getD [] else readStore st t.bladesRef
  { draws := blades.map (fun b => (b, max (-90) (min 90 (b.rot + t.true_rotation)))),
    scale := t.burn_life / t.max_burn_life }

/-- The shadow surface produced by `render_tile(render_shadow=True)`
(grass.py lines 379-384): one circle per base blade position, independent
of rotation. -/
def render_tile_shadow (st : Store) (t : Tile) : TileImage :=
  { draws := (readStore st t.bladesRef).map (fun b => (b, 0)), scale := 1 }

/-- Model of `gm.grass_cache`: maps `render_data = (base_id, master_rotation)`. -/
abbrev GCache := List ((Nat × ℚ) × TileImage)

/-- Model of `gm.shadow_cache`: keyed by `base_id` alone. -/
abbrev SCache := List (Nat × TileImage)

/-- The per-blade easing at the end of `GrassTile.render`
(grass.py lines 437-445): each override rotation moves toward its base
rotation by `normalize(.., stiffness * dt, ..)`. -/
def easeBlades (amt : ℚ) (base arr : Layout) : Layout :=
  (arr.zip base).map (fun cb => { cb.1 with rot := normalize cb.1.rot amt cb.2.rot })

/-- The `matching` flag computed in the same loop: true when every updated
override rotation equals its base rotation. -/
def easeMatches (base arr : Layout) : Bool :=
  (arr.zip base).all (fun cb => decide (cb.1.rot = cb.2.rot))

/-- The whole easing tail of `GrassTile.render`: skipped when
`custom_blade_data` is falsy; drops the override array when all blades are
back at their base rotation. -/
def easePass (stiffness dt : ℚ) (st : Store) (t : Tile) : Tile :=
  if truthy t.custom then
    let base := readStore st t.bladesRef
    let arr2 := easeBlades (stiffness * dt) base (t.custom.getD [])
    if easeMatches base arr2 then { t with custom := none }
    else { t with custom := some arr2 }
  else t

/-- Result of one `GrassTile.render` call: the image blitted to the target
surface, the two caches, the blade store and the updated tile. -/
structure RenderOut where
  img : TileImage
  gcache : GCache
  scache : SCache
  store : Store
  tile : Tile

/-- Model of `GrassTile.render(surf, dt, offset)` (grass.py lines 408-445): burning
(`burning == 0`) or force-deformed tiles render fresh and bypass the
caches; otherwise the image cache keyed by `render_data` is consulted (on a
miss the rendered image is inserted, also filling the shadow cache keyed by
`base_id` on a first shadow-enabled miss) and the blitted image is the
cache entry `grass_cache[render_data]`.  Afterwards the easing tail runs.
`shadowOn` is the truthiness of `gm.ground_shadow[0]`. -/
def render (shadowOn : Bool) (stiffness : ℚ) (st : Store) (g : GCache) (s : SCache)
    (t : Tile) (dt : ℚ) : RenderOut :=
  let out :=
    if t.burning = 0 then (render_tile st t, g, s)
    else if truthy t.custom then (render_tile st t, g, s)
    else
      let caches :=
        if alookup g t.render_data = none ∧ (shadowOn = true ∧ alookup s t.base_id = none) then
          (aset g t.render_data (render_tile st t), aset s t.base_id (render_tile_shadow st t))
        else if alookup g t.render_data = none then
          (aset g t.render_data (render_tile st t), s)
        else (g, s)
      ((alookup caches.1 t.render_data).getD (render_tile st t), caches.1, caches.2)
  { img := out.1, gcache := out.2.1, scache := out.2.2, store := st,
    tile := easePass stiffness dt st t }

theorem render_cache_path (shadowOn : Bool) (stiffness : ℚ) (st : Store) (g : GCache)
    (s : SCache) (t : Tile) (dt : ℚ) (hb : t.burning ≠ 0) (hc : t.custom = none) :
    alookup (render shadowOn stiffness st g s t dt).gcache t.render_data
      = some (render shadowOn stiffness st g s t dt).img
    ∧ (∀ x, alookup g t.render_data = some x →
        (render shadowOn stiffness st g s t dt).gcache = g
        ∧ (render shadowOn stiffness st g s t dt).scache = s
        ∧ (render shadowOn stiffness st g s t dt).img = x)
    ∧ (render shadowOn stiffness st g s t dt).store = st := by
  have htr : truthy t.custom = false := by rw [hc]; rfl
  cases hg : alookup g t.render_data with
  | some x =>
    refine ⟨?_, ?_, rfl⟩
    · simp [render, hb, htr, hg]
    · intro y hy
      injection hy with hxy
      subst hxy
      refine ⟨?_, ?_, ?_⟩ <;> simp [render, hb, htr, hg]
  | none =>
    refine ⟨?_, ?_, rfl⟩
    · by_cases hs : shadowOn = true ∧ alookup s t.base_id = none
      · simp [render, hb, htr, hg, hs, alookup_aset_self]
      · simp [render, hb, htr, hg, hs, alookup_aset_self]
    · intro y hy
      exact Option.noConfusion hy

/-- C2: two tiles with the same layout id (`base_id`) and the same stored
rotation bucket (`master_rotation`, already quantized by convention, with
`render_data = (base_id, master_rotation)` as maintained by
`update_render_data`), neither burning nor force-deformed, are both drawn
from the same `grass_cache` entry keyed by `(base_id, master_rotation)`:
after the first render the cache holds the blitted image under that key,
and the second render blits exactly that entry and changes neither cache,
so both rendered outputs are identical. -/
theorem render_cache_reuse (shadowOn : Bool) (stiffness dt1 dt2 : ℚ) (st : Store)
    (g : GCache) (s : SCache) (t1 t2 : Tile)
    (hb1 : t1.burning ≠ 0) (hb2 : t2.burning ≠ 0)
    (hc1 : t1.custom = none) (hc2 : t2.custom = none)
    (hid : t2.base_id = t1.base_id) (hmr : t2.master_rotation = t1.master_rotation)
    (hr1 : t1.render_data = (t1.base_id, t1.master_rotation))
    (hr2 : t2.render_data = (t2.base_id, t2.master_rotation)) :
    alookup (render shadowOn stiffness st g s t1 dt1).gcache (t1.base_id, t1.master_rotation)
      = some (render shadowOn stiffness st g s t1 dt1).img
    ∧ (render shadowOn stiffness (render shadowOn stiffness st g s t1 dt1).store
        (render shadowOn stiffness st g s t1 dt1).gcache
        (render shadowOn stiffness st g s t1 dt1).scache t2 dt2).img
      = (render shadowOn stiffness st g s t1 dt1).img
    ∧ (render shadowOn stiffness (render shadowOn stiffness st g s t1 dt1).store
        (render shadowOn stiffness st g s t1 dt1).gcache
        (render shadowOn stiffness st g s t1 dt1).scache t2 dt2).gcache
      = (render shadowOn stiffness st g s t1 dt1).gcache
    ∧ (render shadowOn stiffness (render shadowOn stiffness st g s t1 dt1).store
        (render shadowOn stiffness st g s t1 dt1).gcache
        (render shadowOn stiffness st g s t1 dt1).scache t2 dt2).scache
      = (render shadowOn stiffness st g s t1 dt1).scache := by
  obtain ⟨k1, _, _⟩ := render_cache_path shadowOn stiffness st g s t1 dt1 hb1 hc1
  rw [hr1] at k1
  have hkey : t2.render_data = (t1.base_id, t1.master_rotation) := by
    rw [hr2, hid, hmr]
  obtain ⟨_, k2, _⟩ := render_cache_path shadowOn stiffness
    (render shadowOn stiffness st g s t1 dt1).store
    (render shadowOn stiffness st g s t1 dt1).gcache
    (render shadowOn stiffness st g s t1 dt1).scache t2 dt2 hb2 hc2
  rw [hkey] at k2
  obtain ⟨m1, m2, m3⟩ := k2 (render shadowOn stiffness st g s t1 dt1).img k1
  exact ⟨k1, m3, m1, m2⟩

/-- Concrete fixtures for the C2 witness: two distinct dormant tiles
sharing a layout id and rotation bucket. -/
def c2Store : Store := ⟨[[⟨(3, 5), 0, 4, (10, 20, 30)⟩]]⟩

def c2Tile1 : Tile :=
  { loc := (0, 0), size := 15, bladesRef := 0, base_id := 4, master_rotation := 2,
    precision := 30, inc := 3, burn_life := 30, max_burn_life := 30, burning := 60,
    render_data := (4, 2), true_rotation := 6, custom := none }

def c2Tile2 : Tile :=
  { c2Tile1 with loc := (15, 0) }

theorem render_cache_reuse_witness :
    alookup (render false 360 c2Store [] [] c2Tile1 1).gcache
        (c2Tile1.base_id, c2Tile1.master_rotation)
      = some (render false 360 c2Store [] [] c2Tile1 1).img
    ∧ (render false 360 (render false 360 c2Store [] [] c2Tile1 1).store
        (render false 360 c2Store [] [] c2Tile1 1).gcache
        (render false 360 c2Store [] [] c2Tile1 1).scache c2Tile2 1).img
      = (render false 360 c2Store [] [] c2Tile1 1).img
    ∧ (render false 360 (render false 360 c2Store [] [] c2Tile1 1).store
        (render false 360 c2Store [] [] c2Tile1 1).gcache
        (render false 360 c2Store [] [] c2Tile1 1).scache c2Tile2 1).gcache
      = (render false 360 c2Store [] [] c2Tile1 1).gcache
    ∧ (render false 360 (render false 360 c2Store [] [] c2Tile1 1).store
        (render false 360 c2Store [] [] c2Tile1 1).gcache
        (render false 360 c2Store [] [] c2Tile1 1).scache c2Tile2 1).scache
      = (render false 360 c2Store [] [] c2Tile1 1).scache :=
  render_cache_reuse false 360 1 1 c2Store [] [] c2Tile1 c2Tile2
    (by norm_num [c2Tile1]) (by norm_num [c2Tile2, c2Tile1])
    rfl rfl rfl rfl rfl rfl

/-- Model of `GrassTile.apply_force` (grass.py lines 316-332) on a whole tile.
`dist` is the euclidean-distance oracle: it receives a blade's world
position `(loc + blade_pos)` and returns that position's distance to
`force_point` (the `math.sqrt` term of line 322). -/
def apply_force (st : Store) (t : Tile) (force_point : ℚ × ℚ)
    (force_radius force_dropoff : ℚ) (dist : ℚ × ℚ → ℚ) : Store × Tile :=
  let base := readStore st t.bladesRef
  let cur : List (Option Blade) :=
    match t.custom with
    | none => List.replicate base.length none
    | some l => if l.isEmpty then List.replicate base.length none else l.map some
  let arr := (base.zip cur).map (fun bc =>
    apply_force_blade force_point.1 ((t.loc.1 : ℚ) + bc.1.pos.1)
      (bladeForce (dist ((t.loc.1 : ℚ) + bc.1.pos.1, (t.loc.2 : ℚ) + bc.1.pos.2))
        force_radius force_dropoff) bc.1 bc.2)
  (st, { t with custom := some arr })

/-- One externally driven tile operation: a force application or one
`render(dt)` frame (with the frame's shadow flag). -/
inductive TileOp where
  | force : (ℚ × ℚ) → ℚ → ℚ → ((ℚ × ℚ) → ℚ) → TileOp
  | draw : ℚ → Bool → TileOp

/-- A tile together with the shared state its operations touch. -/
structure SimState where
  tile : Tile
  store : Store
  gcache : GCache
  scache : SCache

def drawStep (shadowOn : Bool) (stiffness dt : ℚ) (s : SimState) : SimState :=
  { tile := (render shadowOn stiffness s.store s.gcache s.scache s.tile dt).tile,
    store := (render shadowOn stiffness s.store s.gcache s.scache s.tile dt).store,
    gcache := (render shadowOn stiffness s.store s.gcache s.scache s.tile dt).gcache,
    scache := (render shadowOn stiffness s.store s.gcache s.scache s.tile dt).scache }

def tileOpStep (stiffness : ℚ) (s : SimState) (op : TileOp) : SimState :=
  match op with
  | .force fp radius dropoff dist =>
    { tile := (apply_force s.store s.tile fp radius dropoff dist).2,
      store := (apply_force s.store s.tile fp radius dropoff dist).1,
      gcache := s.gcache, scache := s.scache }
  | .draw dt shadowOn => drawStep shadowOn stiffness dt s

/-- A tile with its override array cleared: used to state that an
operation writes nothing but `custom_blade_data`. -/
def eraseCustom (t : Tile) : Tile := { t with custom := none }

theorem tileOpStep_frame (stiffness : ℚ) (s : SimState) (op : TileOp) :
    (tileOpStep stiffness s op).store = s.store
    ∧ eraseCustom (tileOpStep stiffness s op).tile = eraseCustom s.tile := by
  cases op with
  | force fp radius dropoff dist => exact ⟨rfl, rfl⟩
  | draw dt shadowOn =>
    refine ⟨rfl, ?_⟩
    show eraseCustom (easePass stiffness dt s.store s.tile) = eraseCustom s.tile
    unfold easePass
    dsimp only
    split_ifs <;> rfl

/-- C10: over any sequence of `apply_force` and `render` calls, the blade
store is never written and, on the tile, only `custom_blade_data` changes:
in particular the base layout behind `self.blades` (positions, variants,
base rotations, colors) — possibly the very list object held by the format
pool — keeps its initial value. -/
theorem base_layout_never_mutated (stiffness : ℚ) (ops : List TileOp) (s : SimState) :
    (ops.foldl (tileOpStep stiffness) s).store = s.store
    ∧ eraseCustom (ops.foldl (tileOpStep stiffness) s).tile = eraseCustom s.tile
    ∧ readStore (ops.foldl (tileOpStep stiffness) s).store
        (ops.foldl (tileOpStep stiffness) s).tile.bladesRef
      = readStore s.store s.tile.bladesRef := by
  induction ops generalizing s with
  | nil => exact ⟨rfl, rfl, rfl⟩
  | cons op rest ih =>
    obtain ⟨h1, h2, h3⟩ := ih (tileOpStep stiffness s op)
    obtain ⟨g1, g2⟩ := tileOpStep_frame stiffness s op
    rw [List.foldl_cons]
    have hbr : (rest.foldl (tileOpStep stiffness) (tileOpStep stiffness s op)).tile.bladesRef
        = s.tile.bladesRef := by
      have e1 := congrArg Tile.bladesRef h2
      have e2 := congrArg Tile.bladesRef g2
      simpa [eraseCustom] using e1.trans e2
    refine ⟨h1.trans g1, h2.trans g2, ?_⟩
    rw [h1, g1, hbr]

/-- grass.py line 80: the 8 neighbor offsets checked for burn spread. -/
def BURN_CHECK_OFFSETS : List (ℤ × ℤ) :=
  [(-1, -1), (0, -1), (1, -1), (-1, 0), (1, 0), (-1, 1), (0, 1), (1, 1)]

/-- Model of `gm.grass_tiles`: the field's tile table keyed by grid coordinate. -/
abbrev TileMap := List ((ℤ × ℤ) × Tile)

/-- Model of `self.grass_tiles[check_pos].burning = max(0, .. - 1)` for one
neighbor position when a tile exists there (grass.py lines 189-190);
truncated `Nat` subtraction is exactly `max 0 (b - 1)`. -/
def decBurnAt (m : TileMap) (cp : ℤ × ℤ) : TileMap :=
  match alookup m cp with
  | some u => aset m cp { u with burning := u.burning - 1 }
  | none => m

/-- The 8-neighbor fuse-decrement loop run for a visited burning tile
(grass.py lines 187-190). -/
def burnNeighbors (m : TileMap) (pos : ℤ × ℤ) : TileMap :=
  BURN_CHECK_OFFSETS.foldl (fun acc off => decBurnAt acc (pos.1 + off.1, pos.2 + off.2)) m

/-- The burn-spread part of visiting one render-list position during the
pass (grass.py lines 180-190): only a tile with `burning == 0` spreads. -/
def spreadVisit (m : TileMap) (pos : ℤ × ℤ) : TileMap :=
  match alookup m pos with
  | some t => if t.burning = 0 then burnNeighbors m pos else m
  | none => m

/-- The visible window coordinates (grass.py lines 161-169): a `w × h`
block of grid coordinates starting at `base`, y-major like the loops. -/
def windowPositions (w h : Nat) (base : ℤ × ℤ) : List (ℤ × ℤ) :=
  (List.range h).flatMap (fun y => (List.range w).map (fun x => (base.1 + x, base.2 + y)))

/-- Model of `render_list` (grass.py lines 166-171): the visible positions that
hold a tile, in window order. -/
def renderListOf (m : TileMap) (w h : Nat) (base : ℤ × ℤ) : List (ℤ × ℤ) :=
  (windowPositions w h base).filter (fun p => (alookup m p).isSome)

/-- The effect of one `GrassManager.update_render` pass
(grass.py lines 160-194, with `rot_function = None`) on the `burning`
fields: rendering itself never touches them, so the pass is this fold of
the spread step over the render list. -/
def update_render_burn_spread (m : TileMap) (w h : Nat) (base : ℤ × ℤ) : TileMap :=
  (renderListOf m w h base).foldl spreadVisit m

theorem alookup_decBurnAt_ne (m : TileMap) (cp q : ℤ × ℤ) (h : q ≠ cp) :
    alookup (decBurnAt m cp) q = alookup m q := by
  unfold decBurnAt
  cases hl : alookup m cp with
  | none => rfl
  | some u => exact alookup_aset_ne m _ h

theorem alookup_decBurnAt_self (m : TileMap) (cp : ℤ × ℤ) :
    alookup (decBurnAt m cp) cp
      = (alookup m cp).map (fun u => { u with burning := u.burning - 1 }) := by
  unfold decBurnAt
  cases hl : alookup m cp with
  | none => simp [hl]
  | some u => simp [alookup_aset_self]

theorem burnFold_untouched (offs : List (ℤ × ℤ)) (m : TileMap) (pos q : ℤ × ℤ)
    (hq : ∀ off ∈ offs, q ≠ (pos.1 + off.1, pos.2 + off.2)) :
    alookup (offs.foldl (fun acc off => decBurnAt acc (pos.1 + off.1, pos.2 + off.2)) m) q
      = alookup m q := by
  induction offs generalizing m with
  | nil => rfl
  | cons o rest ih =>
    rw [List.foldl_cons]
    rw [ih _ (fun off hoff => hq off (List.mem_cons_of_mem o hoff))]
    exact alookup_decBurnAt_ne m _ q (hq o (List.mem_cons_self o rest))

theorem burnFold_dec (offs : List (ℤ × ℤ)) (m : TileMap) (pos : ℤ × ℤ) (off : ℤ × ℤ)
    (hmem : off ∈ offs)
    (hnd : (offs.map (fun o => (pos.1 + o.1, pos.2 + o.2))).Nodup) :
    alookup (offs.foldl (fun acc o => decBurnAt acc (pos.1 + o.1, pos.2 + o.2)) m)
        (pos.1 + off.1, pos.2 + off.2)
      = (alookup m (pos.1 + off.1, pos.2 + off.2)).map
          (fun u => { u with burning := u.burning - 1 }) := by
  induction offs generalizing m with
  | nil => cases hmem
  | cons o rest ih =>
    rw [List.map_cons, List.nodup_cons] at hnd
    obtain ⟨hno, hndr⟩ := hnd
    rw [List.foldl_cons]
    rcases List.mem_cons.mp hmem with heq | hmem2
    · rw [heq]
      have hq : ∀ o2 ∈ rest, ((pos.1 + o.1, pos.2 + o.2) : ℤ × ℤ)
          ≠ (pos.1 + o2.1, pos.2 + o2.2) := by
        intro o2 ho2 hcon
        apply hno
        rw [hcon]
        exact List.mem_map_of_mem _ ho2
      rw [burnFold_untouched rest _ pos _ hq]
      exact alookup_decBurnAt_self m _
    · have hne : ((pos.1 + off.1, pos.2 + off.2) : ℤ × ℤ)
          ≠ (pos.1 + o.1, pos.2 + o.2) := by
        intro hcon
        apply hno
        rw [← hcon]
        exact List.mem_map_of_mem _ hmem2
      rw [ih _ hmem2 hndr, alookup_decBurnAt_ne m _ _ hne]

/-- C6 (amended): when a visible tile with `burning == 0` is visited
during the update/render pass, each of its 8 grid neighbors that exists as
a tile — whether or not the neighbor lies inside the visible window — has
its `burning` fuse decremented by exactly 1, floored at 0, and no other
map entry changes during that visit; and only window positions that hold a
tile are visited as spreaders, so off-screen tiles never spread (though
they can receive fire pressure, see the counterexample). -/
theorem burn_spread_visit (m : TileMap) (pos : ℤ × ℤ) (t : Tile)
    (ht : alookup m pos = some t) (hb : t.burning = 0) (w h : Nat) (base : ℤ × ℤ) :
    (∀ off ∈ BURN_CHECK_OFFSETS,
        alookup (spreadVisit m pos) (pos.1 + off.1, pos.2 + off.2)
          = (alookup m (pos.1 + off.1, pos.2 + off.2)).map
              (fun u => { u with burning := u.burning - 1 }))
    ∧ (∀ q : ℤ × ℤ, (∀ off ∈ BURN_CHECK_OFFSETS, q ≠ (pos.1 + off.1, pos.2 + off.2)) →
        alookup (spreadVisit m pos) q = alookup m q)
    ∧ (∀ p ∈ renderListOf m w h base,
        p ∈ windowPositions w h base ∧ (alookup m p).isSome = true) := by
  have hsv : spreadVisit m pos = burnNeighbors m pos := by
    simp [spreadVisit, ht, hb]
  have hinj : ∀ a b : ℤ × ℤ,
      ((pos.1 + a.1, pos.2 + a.2) : ℤ × ℤ) = (pos.1 + b.1, pos.2 + b.2) → a = b := by
    intro a b hab
    obtain ⟨a1, a2⟩ := a
    obtain ⟨b1, b2⟩ := b
    simp only [Prod.mk.injEq] at hab ⊢
    omega
  have hnd : (BURN_CHECK_OFFSETS.map (fun o => (pos.1 + o.1, pos.2 + o.2))).Nodup :=
    List.Nodup.map (fun a b hab => hinj a b hab) (by decide)
  refine ⟨?_, ?_, ?_⟩
  · intro off hoff
    rw [hsv]
    exact burnFold_dec BURN_CHECK_OFFSETS m pos off hoff hnd
  · intro q hq
    rw [hsv]
    exact burnFold_untouched BURN_CHECK_OFFSETS m pos q hq
  · intro p hp
    rw [renderListOf, List.mem_filter] at hp
    exact hp

/-- A copy of the burn test tile with a chosen fuse value. -/
def tileAt (b : Nat) : Tile := { burnTestTile with burning := b }

/-- Two adjacent tiles: a burning one at (0,0) and a dormant one at
(1,0). -/
def burnSpreadMap : TileMap :=
  [(((0 : ℤ), (0 : ℤ)), tileAt 0), (((1 : ℤ), (0 : ℤ)), tileAt 60)]

/-- Refutation of C6 as stated: a tile outside the visible window *does*
receive fire pressure.  With a 1×1 window containing only the burning tile
at (0,0), the off-window tile at (1,0) has its fuse decremented from 60 to
59 by the pass. -/
theorem burn_spread_offscreen_receives :
    ((1 : ℤ), (0 : ℤ)) ∉ windowPositions 1 1 (0, 0)
    ∧ (alookup burnSpreadMap ((1 : ℤ), (0 : ℤ))).map Tile.burning = some 60
    ∧ (alookup (update_render_burn_spread burnSpreadMap 1 1 (0, 0))
        ((1 : ℤ), (0 : ℤ))).map Tile.burning = some 59 :=
  ⟨by decide, rfl, rfl⟩

theorem burn_spread_visit_witness :
    (alookup burnSpreadMap (0, 0) = some (tileAt 0))
    ∧ ((∀ off ∈ BURN_CHECK_OFFSETS,
        alookup (spreadVisit burnSpreadMap (0, 0)) ((0 : ℤ) + off.1, (0 : ℤ) + off.2)
          = (alookup burnSpreadMap ((0 : ℤ) + off.1, (0 : ℤ) + off.2)).map
              (fun u => { u with burning := u.burning - 1 }))
      ∧ (∀ q : ℤ × ℤ,
          (∀ off ∈ BURN_CHECK_OFFSETS, q ≠ ((0 : ℤ) + off.1, (0 : ℤ) + off.2)) →
          alookup (spreadVisit burnSpreadMap (0, 0)) q = alookup burnSpreadMap q)
      ∧ (∀ p ∈ renderListOf burnSpreadMap 1 1 (0, 0),
          p ∈ windowPositions 1 1 (0, 0) ∧ (alookup burnSpreadMap p).isSome = true)) :=
  ⟨rfl, burn_spread_visit burnSpreadMap (0, 0) (tileAt 0) rfl rfl 1 1 (0, 0)⟩

/-- The per-blade deviations of an override array from the base layout
(`|custom_blade_data[i][2] - blades[i][2]|`). -/
def devList (base arr : Layout) : List ℚ :=
  (arr.zip base).map (fun cb => |cb.1.rot - cb.2.rot|)

theorem devList_nonneg (base arr : Layout) : ∀ d ∈ devList base arr, 0 ≤ d := by
  intro d hd
  rw [devList, List.mem_map] at hd
  obtain ⟨cb, _, h⟩ := hd
  rw [← h]
  exact abs_nonneg _

theorem easeBlades_length (amt : ℚ) (base arr : Layout) :
    (easeBlades amt base arr).length = min arr.length base.length := by
  simp [easeBlades]

theorem devList_ease (amt : ℚ) (h : 0 ≤ amt) (base arr : Layout) :
    devList base (easeBlades amt base arr)
      = (devList base arr).map (fun d => max 0 (d - amt)) := by
  induction arr generalizing base with
  | nil => cases base <;> rfl
  | cons c crest ih =>
    cases base with
    | nil => rfl
    | cons b brest =>
      have hhead : devList (b :: brest) (easeBlades amt (b :: brest) (c :: crest))
          = |normalize c.rot amt b.rot - b.rot|
              :: devList brest (easeBlades amt brest crest) := rfl
      rw [hhead, ih brest, normalize_dev _ _ _ h]
      rfl

theorem easeMatches_iff (base arr : Layout) :
    easeMatches base arr = true ↔ ∀ d ∈ devList base arr, d = 0 := by
  rw [easeMatches, List.all_eq_true]
  constructor
  · intro h d hd
    rw [devList, List.mem_map] at hd
    obtain ⟨cb, hcb, hde⟩ := hd
    have h2 := h cb hcb
    rw [decide_eq_true_eq] at h2
    rw [← hde, h2, sub_self, abs_zero]
  · intro h cb hcb
    rw [decide_eq_true_eq]
    have h2 := h |cb.1.rot - cb.2.rot| (by rw [devList]; exact List.mem_map_of_mem _ hcb)
    rwa [abs_eq_zero, sub_eq_zero] at h2

theorem map_id_of_mem {α : Type} (l : List α) (f : α → α) (h : ∀ a ∈ l, f a = a) :
    l.map f = l := by
  induction l with
  | nil => rfl
  | cons x xs ih =>
    rw [List.map_cons, h x (List.mem_cons_self x xs),
      ih (fun a ha => h a (List.mem_cons_of_mem x ha))]

theorem map_step (l : List ℚ) (amt : ℚ) (k : ℕ) (hamt : 0 ≤ amt) :
    (l.map (fun d => max 0 (d - (k : ℚ) * amt))).map (fun d => max 0 (d - amt))
      = l.map (fun d => max 0 (d - ((k : ℚ) + 1) * amt)) := by
  have key : ∀ d : ℚ, max 0 (max 0 (d - (k : ℚ) * amt) - amt)
      = max 0 (d - ((k : ℚ) + 1) * amt) := by
    intro d
    have hexp : ((k : ℚ) + 1) * amt = (k : ℚ) * amt + amt := by ring
    rcases le_or_lt (d - (k : ℚ) * amt) 0 with h | h
    · rw [max_eq_left h, zero_sub, max_eq_left (by linarith : -amt ≤ 0),
        max_eq_left (by linarith : d - ((k : ℚ) + 1) * amt ≤ 0)]
    · rw [max_eq_right (le_of_lt h)]
      have heq : d - (k : ℚ) * amt - amt = d - ((k : ℚ) + 1) * amt := by ring
      rw [heq]
  rw [List.map_map]
  congr 1
  funext d
  simp only [Function.comp_apply]
  exact key d

theorem le_foldr_max (l : List ℚ) : ∀ d ∈ l, d ≤ l.foldr max 0 := by
  induction l with
  | nil => intro d hd; cases hd
  | cons x xs ih =>
    intro d hd
    rcases List.mem_cons.mp hd with h | h
    · rw [h, List.foldr_cons]
      exact le_max_left _ _
    · rw [List.foldr_cons]
      exact le_trans (ih d h) (le_max_right _ _)

theorem foldr_max_mem (l : List ℚ) : l.foldr max 0 = 0 ∨ l.foldr max 0 ∈ l := by
  induction l with
  | nil => exact Or.inl rfl
  | cons x xs ih =>
    rw [List.foldr_cons]
    rcases max_choice x (xs.foldr max 0) with h | h
    · rw [h]
      exact Or.inr (List.mem_cons_self x xs)
    · rw [h]
      rcases ih with h0 | hm
      · exact Or.inl h0
      · exact Or.inr (List.mem_cons_of_mem x hm)

theorem easePass_custom_some (stiffness dt : ℚ) (st : Store) (t : Tile) (arr : Layout)
    (hc : t.custom = some arr) (hne : arr ≠ []) :
    (easePass stiffness dt st t).custom
      = if easeMatches (readStore st t.bladesRef)
            (easeBlades (stiffness * dt) (readStore st t.bladesRef) arr) = true
        then none
        else some (easeBlades (stiffness * dt) (readStore st t.bladesRef) arr) := by
  obtain ⟨c, crest, rfl⟩ := List.exists_cons_of_ne_nil hne
  have htr : truthy t.custom = true := by rw [hc]; rfl
  unfold easePass
  rw [if_pos htr, hc]
  dsimp only [Option.getD_some]
  split_ifs with h <;> rfl

theorem easePass_custom_none (stiffness dt : ℚ) (st : Store) (t : Tile)
    (hc : t.custom = none) : (easePass stiffness dt st t).custom = none := by
  have h : ¬ (truthy t.custom = true) := by
    rw [hc]
    simp [truthy]
  unfold easePass
  rw [if_neg h]
  exact hc

theorem easePass_bladesRef (stiffness dt : ℚ) (st : Store) (t : Tile) :
    (easePass stiffness dt st t).bladesRef = t.bladesRef := by
  unfold easePass
  dsimp only
  split_ifs <;> rfl

theorem drawStep_iter_frame (shadowOn : Bool) (stiffness dt : ℚ) (s0 : SimState) (k : ℕ) :
    ((drawStep shadowOn stiffness dt)^[k] s0).store = s0.store
    ∧ ((drawStep shadowOn stiffness dt)^[k] s0).tile.bladesRef = s0.tile.bladesRef := by
  induction k with
  | zero => exact ⟨rfl, rfl⟩
  | succ k ih =>
    obtain ⟨h1, h2⟩ := ih
    rw [Function.iterate_succ_apply']
    constructor
    · exact h1
    · have h3 : (drawStep shadowOn stiffness dt
          ((drawStep shadowOn stiffness dt)^[k] s0)).tile.bladesRef
          = ((drawStep shadowOn stiffness dt)^[k] s0).tile.bladesRef :=
        easePass_bladesRef stiffness dt _ _
      rw [h3, h2]

theorem ease_iter_invariant (shadowOn : Bool) (stiffness dt : ℚ) (s0 : SimState)
    (arr : Layout) (hc : s0.tile.custom = some arr) (hne : arr ≠ [])
    (hamt : 0 < stiffness * dt)
    (hlen : arr.length = (readStore s0.store s0.tile.bladesRef).length)
    (n : ℕ)
    (hn : n = (⌈(devList (readStore s0.store s0.tile.bladesRef) arr).foldr max 0
        / (stiffness * dt)⌉).toNat) :
    ∀ k : ℕ,
      (k < max 1 n → ∃ a : Layout,
        ((drawStep shadowOn stiffness dt)^[k] s0).tile.custom = some a
        ∧ a.length = arr.length
        ∧ devList (readStore s0.store s0.tile.bladesRef) a
            = (devList (readStore s0.store s0.tile.bladesRef) arr).map
                (fun d => max 0 (d - (k : ℚ) * (stiffness * dt))))
      ∧ (max 1 n ≤ k → ((drawStep shadowOn stiffness dt)^[k] s0).tile.custom = none) := by
  intro k
  set base := readStore s0.store s0.tile.bladesRef with hbase
  set amt := stiffness * dt with hamtdef
  set maxDev := (devList base arr).foldr max 0 with hmd
  induction k with
  | zero =>
    constructor
    · intro _
      refine ⟨arr, by simpa using hc, rfl, ?_⟩
      symm
      apply map_id_of_mem
      intro d hd
      rw [Nat.cast_zero, zero_mul, sub_zero]
      exact max_eq_right (devList_nonneg base arr d hd)
    · intro hle
      omega
  | succ k ihk =>
    obtain ⟨ihL, ihR⟩ := ihk
    have hstep : (drawStep shadowOn stiffness dt)^[k + 1] s0
        = drawStep shadowOn stiffness dt ((drawStep shadowOn stiffness dt)^[k] s0) :=
      Function.iterate_succ_apply' _ k s0
    obtain ⟨hst, hbr⟩ := drawStep_iter_frame shadowOn stiffness dt s0 k
    have hcustStep : ∀ (a : Layout),
        ((drawStep shadowOn stiffness dt)^[k] s0).tile.custom = some a → a ≠ [] →
        ((drawStep shadowOn stiffness dt)^[k + 1] s0).tile.custom
          = if easeMatches base (easeBlades amt base a) = true then none
            else some (easeBlades amt base a) := by
      intro a hsome hane
      rw [hstep]
      have h4 : (drawStep shadowOn stiffness dt
          ((drawStep shadowOn stiffness dt)^[k] s0)).tile.custom
          = (easePass stiffness dt ((drawStep shadowOn stiffness dt)^[k] s0).store
              ((drawStep shadowOn stiffness dt)^[k] s0).tile).custom := rfl
      rw [h4, easePass_custom_some stiffness dt _ _ a hsome hane, hst, hbr]
    constructor
    · intro hklt
      have hk : k < max 1 n := Nat.lt_of_succ_lt hklt
      obtain ⟨a, hsome, hlena, hdev⟩ := ihL hk
      have hane : a ≠ [] := by
        intro hz
        apply hne
        rw [hz] at hlena
        exact List.eq_nil_of_length_eq_zero hlena.symm
      have hcust := hcustStep a hsome hane
      have hdev2 : devList base (easeBlades amt base a)
          = (devList base arr).map (fun d => max 0 (d - ((k : ℚ) + 1) * amt)) := by
        rw [devList_ease amt (le_of_lt hamt) base a, hdev,
          map_step _ amt k (le_of_lt hamt)]
      have hmlt : ((k : ℚ) + 1) * amt < maxDev := by
        have h2 : k + 1 < n := by
          rcases le_or_lt n 1 with hn1 | hn1
          · rw [Nat.max_eq_left hn1] at hklt
            omega
          · rwa [Nat.max_eq_right (le_of_lt hn1)] at hklt
        have h3 : ((k + 1 : ℕ) : ℤ) < ⌈maxDev / amt⌉ := by
          rw [hn] at h2
          exact Int.lt_toNat.mp h2
        have h4 : ((k + 1 : ℕ) : ℚ) < maxDev / amt := by
          have := Int.lt_ceil.mp h3
          exact_mod_cast this
        calc ((k : ℚ) + 1) * amt = ((k + 1 : ℕ) : ℚ) * amt := by push_cast; ring
        _ < (maxDev / amt) * amt := mul_lt_mul_of_pos_right h4 hamt
        _ = maxDev := div_mul_cancel₀ maxDev (ne_of_gt hamt)
      have hmd0 : 0 < maxDev := by
        have hp : 0 < ((k : ℚ) + 1) * amt := by positivity
        linarith
      have hmm : maxDev ∈ devList base arr := by
        rcases foldr_max_mem (devList base arr) with h0 | hm
        · rw [← hmd] at h0
          exact absurd h0 (ne_of_gt hmd0)
        · rw [← hmd] at hm
          exact hm
      cases hmatch : easeMatches base (easeBlades amt base a) with
      | true =>
        exfalso
        have hall := (easeMatches_iff _ _).mp hmatch
        have hmem2 : max 0 (maxDev - ((k : ℚ) + 1) * amt)
            ∈ devList base (easeBlades amt base a) := by
          rw [hdev2]
          exact List.mem_map_of_mem _ hmm
        have hz := hall _ hmem2
        rw [max_eq_right (by linarith)] at hz
        linarith
      | false =>
        refine ⟨easeBlades amt base a, ?_, ?_, ?_⟩
        · rw [hcust, hmatch]
          simp
        · rw [easeBlades_length, hlena, hlen]
          exact min_self _
        · rw [hdev2]
          have hcast : ((k : ℚ) + 1) = ((k + 1 : ℕ) : ℚ) := by push_cast; ring
          rw [hcast]
    · intro hge
      rcases Nat.lt_or_ge k (max 1 n) with hk | hk
      · obtain ⟨a, hsome, hlena, hdev⟩ := ihL hk
        have hane : a ≠ [] := by
          intro hz
          apply hne
          rw [hz] at hlena
          exact List.eq_nil_of_length_eq_zero hlena.symm
        have hcust := hcustStep a hsome hane
        have hmle : maxDev ≤ ((k : ℚ) + 1) * amt := by
          have hp : (0 : ℚ) < ((k : ℚ) + 1) * amt := by positivity
          rcases le_or_lt (⌈maxDev / amt⌉ : ℤ) 0 with hc0 | hc0
          · have h1 : maxDev / amt ≤ (0 : ℚ) :=
              le_trans (Int.le_ceil _) (by exact_mod_cast hc0)
            have heq : maxDev = (maxDev / amt) * amt :=
              (div_mul_cancel₀ maxDev (ne_of_gt hamt)).symm
            nlinarith
          · have h7 : n ≤ k + 1 := le_trans (le_max_right 1 n) hge
            rw [hn] at h7
            have hcle : (⌈maxDev / amt⌉ : ℤ) ≤ ((k + 1 : ℕ) : ℤ) := by
              exact_mod_cast Int.toNat_le.mp h7
            have h5 : maxDev / amt ≤ ((k + 1 : ℕ) : ℚ) := by
              have := Int.ceil_le.mp hcle
              exact_mod_cast this
            have h6 : maxDev ≤ ((k + 1 : ℕ) : ℚ) * amt := by
              rw [div_le_iff₀ hamt] at h5
              exact h5
            calc maxDev ≤ ((k + 1 : ℕ) : ℚ) * amt := h6
            _ = ((k : ℚ) + 1) * amt := by push_cast; ring
        have hmt : easeMatches base (easeBlades amt base a) = true := by
          rw [easeMatches_iff]
          intro d hd
          rw [devList_ease amt (le_of_lt hamt) base a, hdev,
            map_step _ amt k (le_of_lt hamt), List.mem_map] at hd
          obtain ⟨d0, hd0, rfl⟩ := hd
          have hdle : d0 ≤ maxDev := le_foldr_max _ d0 hd0
          exact max_eq_left (by linarith)
        rw [hcust, hmt]
        simp
      · have hnone := ihR hk
        rw [hstep]
        have h4 : (drawStep shadowOn stiffness dt
            ((drawStep shadowOn stiffness dt)^[k] s0)).tile.custom
            = (easePass stiffness dt ((drawStep shadowOn stiffness dt)^[k] s0).store
                ((drawStep shadowOn stiffness dt)^[k] s0).tile).custom := rfl
        rw [h4]
        exact easePass_custom_none _ _ _ _ hnone

/-- C4: for a tile with an active override array, iterated `render(dt)`
calls with fixed `dt > 0` and no further force move every overridden
blade's rotation toward its base rotation by exactly `stiffness * dt` per
call without overshooting: after `k` calls the deviations are exactly
`max 0 (d₀ - k·stiffness·dt)` (a monotone decrease, snapping to the base
rotation when within `stiffness * dt` of it), and for every
`k ≥ max 1 ⌈maxDeviation/(stiffness·dt)⌉` all blades equal their base
rotation and the override array has been dropped
(`custom_blade_data = None`), re-enabling cached rendering.  The `max 1`
covers the degenerate case of an override already equal to the base
layout, which is dropped by its first render call. -/
theorem render_return_to_rest (shadowOn : Bool) (stiffness dt : ℚ) (s0 : SimState)
    (arr : Layout) (hc : s0.tile.custom = some arr) (hne : arr ≠ [])
    (hamt : 0 < stiffness * dt)
    (hlen : arr.length = (readStore s0.store s0.tile.bladesRef).length)
    (n : ℕ)
    (hn : n = (⌈(devList (readStore s0.store s0.tile.bladesRef) arr).foldr max 0
        / (stiffness * dt)⌉).toNat) :
    (∀ k : ℕ, k < max 1 n → ∃ a : Layout,
        ((drawStep shadowOn stiffness dt)^[k] s0).tile.custom = some a
        ∧ devList (readStore s0.store s0.tile.bladesRef) a
            = (devList (readStore s0.store s0.tile.bladesRef) arr).map
                (fun d => max 0 (d - (k : ℚ) * (stiffness * dt))))
    ∧ (∀ k : ℕ, max 1 n ≤ k →
        ((drawStep shadowOn stiffness dt)^[k] s0).tile.custom = none) := by
  have haux := ease_iter_invariant shadowOn stiffness dt s0 arr hc hne hamt hlen n hn
  constructor
  · intro k hk
    obtain ⟨a, h1, _, h3⟩ := (haux k).1 hk
    exact ⟨a, h1, h3⟩
  · intro k hk
    exact (haux k).2 hk

/-- Fixtures for the C4 witness: one blade at base rotation 0 with an
override rotation of 45, eased at `stiffness * dt = 90`. -/
def c4Base : Blade := ⟨(0, 0), 0, 0, (0, 0, 0)⟩

def c4Override : Blade := ⟨(0, 0), 0, 45, (0, 0, 0)⟩

def c4Sim : SimState :=
  { tile := { burnTestTile with burning := 60, custom := some [c4Override] },
    store := ⟨[[c4Base]]⟩, gcache := [], scache := [] }

theorem render_return_to_rest_witness :
    (0 : ℚ) < 90 * 1
    ∧ ((∀ k : ℕ, k < max 1 1 → ∃ a : Layout,
          ((drawStep false 90 1)^[k] c4Sim).tile.custom = some a
          ∧ devList (readStore c4Sim.store c4Sim.tile.bladesRef) a
              = (devList (readStore c4Sim.store c4Sim.tile.bladesRef) [c4Override]).map
                  (fun d => max 0 (d - (k : ℚ) * (90 * 1))))
      ∧ (∀ k : ℕ, max 1 1 ≤ k → ((drawStep false 90 1)^[k] c4Sim).tile.custom = none)) := by
  have hdl : devList (readStore c4Sim.store c4Sim.tile.bladesRef) [c4Override] = [45] := by
    norm_num [devList, readStore, c4Sim, c4Base, c4Override, burnTestTile]
  refine ⟨by norm_num, render_return_to_rest false 90 1 c4Sim [c4Override] rfl (by simp)
    (by norm_num) rfl 1 ?_⟩
  rw [hdl]
  rw [show ([(45 : ℚ)].foldr max 0) = 45 from by
    rw [List.foldr_cons, List.foldr_nil]
    exact max_eq_left (by norm_num)]
  rw [show (45 : ℚ) / (90 * 1) = 1 / 2 by norm_num]
  rw [show (⌈(1 / 2 : ℚ)⌉ : ℤ) = 1 from by
    rw [Int.ceil_eq_iff]
    norm_num]
  rfl

end GrassSim
